import Mathlib

/-!
Verification development for the EDCoPilot custom-conversation refresh pipeline.

Python strings are embedded as lists of characters (`Str`); each definition
below is a direct translation of the corresponding function in the repository
(`src/utils/file_manager.py`, `src/utils/api_client.py`,
`src/utils/personalization.py`, `src/generators/base_generator.py`).
Python loops that accumulate an output list are rendered as structural
recursions that emit the same elements in the same order.
-/

/-- Python `str` values are modelled as lists of characters. -/
abbrev Str := List Char

/-- Characters treated as whitespace by Python's `str.strip` and the regex
class `\s` (ASCII range; the inputs handled by this program are ASCII). -/
def pyIsSpace (c : Char) : Bool :=
  c = ' ' || c = '\t' || c = '\n' || c = '\r' || c.toNat = 11 || c.toNat = 12

/-- Python `str.strip()`: drop leading and trailing whitespace. -/
def pyStrip (s : Str) : Str :=
  ((s.dropWhile pyIsSpace).reverse.dropWhile pyIsSpace).reverse

/-- Python `str.lower()` (ASCII case folding, which is all the program uses). -/
def lowerStr (s : Str) : Str := s.map Char.toLower

/-- Python `content.split(sep)` for a single-character separator: every
occurrence of the separator introduces a new (possibly empty) piece, and the
result is never the empty list (`"".split(c) == ['']`). -/
def splitChar (sep : Char) : Str → List Str
  | [] => [[]]
  | c :: cs =>
    if c = sep then [] :: splitChar sep cs
    else (c :: (splitChar sep cs).headI) :: (splitChar sep cs).tail

/-- Python `'\n'.join(lines)`. -/
def pyJoin : List Str → Str
  | [] => []
  | [l] => l
  | l :: ls => l ++ '\n' :: pyJoin ls

/-- Python `sep.join(parts)` for a one-character separator. -/
def pyJoinSep (sep : Char) : List Str → Str
  | [] => []
  | [l] => l
  | l :: ls => l ++ sep :: pyJoinSep sep ls

-- ## Basic lemmas about the string model

theorem splitChar_ne_nil (sep : Char) (s : Str) : splitChar sep s ≠ [] := by
  cases s with
  | nil => simp [splitChar]
  | cons c cs => simp only [splitChar]; split <;> simp

theorem splitChar_not_mem (sep : Char) (s : Str) :
    ∀ piece ∈ splitChar sep s, sep ∉ piece := by
  induction s with
  | nil => intro piece hp; simp [splitChar] at hp; simp [hp]
  | cons c cs ih =>
    intro piece hp
    simp only [splitChar] at hp
    by_cases hc : c = sep
    · simp only [if_pos hc] at hp
      rcases List.mem_cons.mp hp with h | h
      · simp [h]
      · exact ih piece h
    · simp only [if_neg hc] at hp
      rcases hsplit : splitChar sep cs with _ | ⟨hd, tl⟩
      · exact absurd hsplit (splitChar_ne_nil sep cs)
      · rw [hsplit] at hp
        simp only [List.headI, List.tail] at hp
        rcases List.mem_cons.mp hp with h | h
        · subst h
          intro hmem
          rcases List.mem_cons.mp hmem with h2 | h2
          · exact hc h2.symm
          · exact ih hd (by rw [hsplit]; exact List.mem_cons_self hd tl) h2
        · exact ih piece (by rw [hsplit]; exact List.mem_cons_of_mem hd h)

theorem splitChar_no_sep (sep : Char) (s : Str) (h : sep ∉ s) :
    splitChar sep s = [s] := by
  induction s with
  | nil => simp [splitChar]
  | cons c cs ih =>
    have hc : ¬ c = sep := fun hcc => h (hcc ▸ List.mem_cons_self c cs)
    have hcs : sep ∉ cs := fun hm => h (List.mem_cons_of_mem c hm)
    simp only [splitChar, if_neg hc, ih hcs]
    rfl

theorem splitChar_append_sep (sep : Char) (l r : Str) (h : sep ∉ l) :
    splitChar sep (l ++ sep :: r) = l :: splitChar sep r := by
  induction l with
  | nil => simp [splitChar]
  | cons c cs ih =>
    have hc : ¬ c = sep := fun hcc => h (hcc ▸ List.mem_cons_self c cs)
    have hcs : sep ∉ cs := fun hm => h (List.mem_cons_of_mem c hm)
    have hstep : (c :: cs) ++ sep :: r = c :: (cs ++ sep :: r) := rfl
    rw [hstep]
    simp only [splitChar, if_neg hc, ih hcs]
    rcases hsplit : splitChar sep r with _ | ⟨hd, tl⟩
    · exact absurd hsplit (splitChar_ne_nil sep r)
    · rfl

theorem splitChar_pyJoin (ls : List Str) (hne : ls ≠ [])
    (h : ∀ l ∈ ls, ('\n' : Char) ∉ l) :
    splitChar '\n' (pyJoin ls) = ls := by
  induction ls with
  | nil => exact absurd rfl hne
  | cons l ls ih =>
    cases ls with
    | nil =>
      simp only [pyJoin]
      exact splitChar_no_sep '\n' l (h l (List.mem_cons_self l []))
    | cons l2 ls2 =>
      have hstep : pyJoin (l :: l2 :: ls2) = l ++ '\n' :: pyJoin (l2 :: ls2) := rfl
      rw [hstep, splitChar_append_sep '\n' l _ (h l (List.mem_cons_self l _))]
      rw [ih (by simp) (fun x hx => h x (List.mem_cons_of_mem l hx))]

theorem mem_of_mem_pyStrip {c : Char} {s : Str} (h : c ∈ pyStrip s) : c ∈ s := by
  unfold pyStrip at h
  rw [List.mem_reverse] at h
  have h1 := (List.dropWhile_sublist (p := pyIsSpace)
    (l := (s.dropWhile pyIsSpace).reverse)).subset h
  rw [List.mem_reverse] at h1
  exact (List.dropWhile_sublist (p := pyIsSpace) (l := s)).subset h1

theorem dropWhile_eq_self_of_head {p : Char → Bool} {s : Str}
    (h : ∀ c, s.head? = some c → p c = false) : s.dropWhile p = s := by
  cases s with
  | nil => rfl
  | cons c cs =>
    have := h c rfl
    simp [List.dropWhile, this]

theorem head?_dropWhile_false (p : Char → Bool) (s : Str) :
    ∀ c, (s.dropWhile p).head? = some c → p c = false := by
  induction s with
  | nil => intro c hc; simp [List.dropWhile] at hc
  | cons a as ih =>
    intro c hc
    by_cases ha : p a
    · rw [List.dropWhile_cons_of_pos ha] at hc
      exact ih c hc
    · rw [List.dropWhile_cons_of_neg ha] at hc
      simp only [List.head?] at hc
      have hac : a = c := by injection hc
      subst hac
      simpa using ha

theorem pyStrip_idem (s : Str) : pyStrip (pyStrip s) = pyStrip s := by
  set u := s.dropWhile pyIsSpace with hu
  set v := u.reverse.dropWhile pyIsSpace with hv
  have hps : pyStrip s = v.reverse := rfl
  -- v.reverse is a prefix of u, so its head (if any) is the head of u
  obtain ⟨pre, hpre⟩ : v <:+ u.reverse := List.dropWhile_suffix pyIsSpace
  have hupre : u = v.reverse ++ pre.reverse := by
    have : u.reverse = pre ++ v := hpre.symm
    calc u = u.reverse.reverse := (List.reverse_reverse u).symm
    _ = (pre ++ v).reverse := by rw [this]
    _ = v.reverse ++ pre.reverse := by rw [List.reverse_append]
  have hhead : ∀ c, v.reverse.head? = some c → pyIsSpace c = false := by
    intro c hcv
    rcases hvr : v.reverse with _ | ⟨a, rest⟩
    · rw [hvr] at hcv; simp at hcv
    · rw [hvr] at hcv
      simp only [List.head?] at hcv
      have hac : a = c := by injection hcv
      subst hac
      have huhead : u.head? = some a := by
        rw [hupre, hvr]; rfl
      exact head?_dropWhile_false pyIsSpace s a (hu ▸ huhead)
  rw [hps]
  unfold pyStrip
  rw [dropWhile_eq_self_of_head hhead, List.reverse_reverse]
  have hvhead : ∀ c, v.head? = some c → pyIsSpace c = false :=
    head?_dropWhile_false pyIsSpace u.reverse
  rw [dropWhile_eq_self_of_head hvhead]

-- ## FileManager (src/utils/file_manager.py)

/-- The non-blank trimmed lines of a content string:
`[line.strip() for line in content.split('\n') if line.strip()]`
(used by `FileManager._merge_content_strings`). -/
def contentLines (s : Str) : List Str :=
  ((splitChar '\n' s).map pyStrip).filter (fun l => l ≠ [])

/-- The new lines that survive the case-insensitive duplicate check of
`FileManager._merge_content_strings`:
`[line for line in new_lines if line.lower() not in existing_lower]`
(Python uses a set of lowered existing lines; set membership coincides with
list membership). -/
def uniqueNewLines (existingLines newLines : List Str) : List Str :=
  newLines.filter (fun l => ¬ (existingLines.map lowerStr).contains (lowerStr l))

/-- Line-level core of `FileManager._merge_content_strings`: combine and cap
at `maxLines`, keeping the most recent lines (`combined_lines[-max_lines:]`). -/
def mergeLines (existingLines newLines : List Str) (maxLines : Nat) : List Str :=
  -- combined_lines = existing_lines + unique_new_lines, then
  -- combined_lines[-max_lines:]: Python's negative slice keeps the last
  -- max_lines elements — except that for max_lines = 0 the start index -0
  -- is 0, so the slice keeps the whole list
  if (existingLines ++ uniqueNewLines existingLines newLines).length > maxLines then
    (if maxLines = 0 then existingLines ++ uniqueNewLines existingLines newLines
    else (existingLines ++ uniqueNewLines existingLines newLines).drop
      ((existingLines ++ uniqueNewLines existingLines newLines).length - maxLines))
  else existingLines ++ uniqueNewLines existingLines newLines

/-- `FileManager._merge_content_strings(existing_content, new_content, max_lines)`. -/
def merge_content_strings (existingContent newContent : Str)
    (maxLines : Nat := 100) : Str :=
  pyJoin (mergeLines (contentLines existingContent) (contentLines newContent) maxLines)

/-- The denylist of `FileManager.validate_content`. -/
def inappropriateWords : List Str :=
  ["inappropriate".toList, "offensive".toList, "spam".toList]

/-- `FileManager.validate_content`: non-empty after strip, at least 50
characters after strip, and free of the denylisted substrings. -/
def validate_content (content : Str) : Bool :=
  if content = [] || pyStrip content = [] then false
  else if (pyStrip content).length < 50 then false
  else if inappropriateWords.any (fun w => decide (w <:+: lowerStr content)) then false
  else true

/-- `FileManager.deploy_content`, modelled as a transformer of the destination
file's state (`none` = file absent).  The timestamped backup copy and the
possibility of I/O errors are outside the model: the backup does not modify
the destination, and reads/writes are modelled as succeeding.  Returns the
reported success flag and the resulting destination state. -/
def deploy_content (existing : Option Str) (content : Str) : Bool × Option Str :=
  -- create_backup(file_path) : leaves the destination untouched
  if ¬ validate_content content then (false, existing)
  else (true, some content)

/-- `FileManager.merge_content(file_path, new_content)`: back up, read the
existing content (empty if the file does not exist), merge with
`max_lines = 100`, write back. -/
def merge_content (existing : Option Str) (newContent : Str) : Str :=
  merge_content_strings (existing.getD []) newContent 100

/-- `BaseGenerator._deploy_content`, modelled on the same file-state type:
merge mode calls `FileManager.merge_content`, replace mode calls
`FileManager.write_content`; neither consults `validate_content`. -/
def generator_deploy_content (existing : Option Str) (content : Str)
    (mergeExisting : Bool) : Bool × Option Str :=
  if mergeExisting then (true, some (merge_content existing content))
  else (true, some content)

-- ## Lemmas about the merge model

theorem contentLines_strip_fixed {l : Str} {s : Str} (h : l ∈ contentLines s) :
    pyStrip l = l := by
  unfold contentLines at h
  have h1 := List.mem_of_mem_filter h
  rcases List.mem_map.mp h1 with ⟨x, _, hx⟩
  rw [← hx]
  exact pyStrip_idem x

theorem contentLines_ne_nil {l : Str} {s : Str} (h : l ∈ contentLines s) :
    l ≠ [] := by
  unfold contentLines at h
  have := List.of_mem_filter h
  simpa using this

theorem contentLines_no_newline {l : Str} {s : Str} (h : l ∈ contentLines s) :
    ('\n' : Char) ∉ l := by
  unfold contentLines at h
  have h1 := List.mem_of_mem_filter h
  rcases List.mem_map.mp h1 with ⟨x, hx, hxe⟩
  intro hmem
  rw [← hxe] at hmem
  exact splitChar_not_mem '\n' s x hx (mem_of_mem_pyStrip hmem)

/-- Splitting a joined list of clean lines recovers exactly those lines. -/
theorem contentLines_pyJoin (ls : List Str)
    (h : ∀ l ∈ ls, pyStrip l = l ∧ l ≠ [] ∧ ('\n' : Char) ∉ l) :
    contentLines (pyJoin ls) = ls := by
  cases hls : ls with
  | nil => simp [contentLines, pyJoin, splitChar, pyStrip]
  | cons a as =>
    rw [← hls]
    unfold contentLines
    rw [splitChar_pyJoin ls (by rw [hls]; simp) (fun l hl => (h l hl).2.2)]
    have hmap : ls.map pyStrip = ls := by
      have := List.map_congr_left (f := pyStrip) (g := id) (l := ls)
        (fun l hl => (h l hl).1)
      simpa using this
    rw [hmap]
    apply List.filter_eq_self.mpr
    intro l hl
    simpa using (h l hl).2.1

theorem mergeLines_mem {l : Str} {el nl : List Str} {maxLines : Nat}
    (h : l ∈ mergeLines el nl maxLines) : l ∈ el ∨ l ∈ nl := by
  have key : l ∈ el ++ uniqueNewLines el nl → l ∈ el ∨ l ∈ nl := by
    intro hm
    rcases List.mem_append.mp hm with h1 | h1
    · exact Or.inl h1
    · exact Or.inr (List.mem_of_mem_filter h1)
  unfold mergeLines at h
  split at h
  · split at h
    · exact key h
    · exact key ((List.drop_subset _ _) h)
  · exact key h

theorem contentLines_merge_content_strings (E N : Str) (maxLines : Nat) :
    contentLines (merge_content_strings E N maxLines) =
      mergeLines (contentLines E) (contentLines N) maxLines := by
  unfold merge_content_strings
  apply contentLines_pyJoin
  intro l hl
  rcases mergeLines_mem hl with h | h
  · exact ⟨contentLines_strip_fixed h, contentLines_ne_nil h, contentLines_no_newline h⟩
  · exact ⟨contentLines_strip_fixed h, contentLines_ne_nil h, contentLines_no_newline h⟩

theorem mergeLines_length_le (el nl : List Str) (maxLines : Nat)
    (h : (el ++ uniqueNewLines el nl).length ≤ maxLines) :
    mergeLines el nl maxLines = el ++ uniqueNewLines el nl := by
  unfold mergeLines
  rw [if_neg (by omega)]

-- ## APIClient (src/utils/api_client.py) and Config (src/config.py)

/-- The two text-generation providers known to `Config`. -/
inductive Provider
  | OPENAI
  | ANTHROPIC
deriving DecidableEq, Repr

/-- `Config.get_provider_order`: preferred provider first, then the fallback. -/
def get_provider_order (preferred : Provider) : List Provider :=
  if preferred = Provider.OPENAI then [Provider.OPENAI, Provider.ANTHROPIC]
  else [Provider.ANTHROPIC, Provider.OPENAI]

/-- One provider's retry loop (`APIClient._generate_openai` /
`APIClient._generate_anthropic`).  The network is modelled as the list of
outcomes of the successive attempts: `none` means the attempt raised an
exception (caught and retried after the backoff sleep, which has no modelled
effect), `some s` means the API returned text `s`.  The code strips the
returned text and returns it if non-empty; an empty result falls through to
the next attempt. -/
def generate_with_retries : List (Option Str) → Option Str
  | [] => none
  | a :: rest =>
    match a with
    | some s => if pyStrip s ≠ [] then some (pyStrip s) else generate_with_retries rest
    | none => generate_with_retries rest

/-- Provider loop of `APIClient.generate_content`: skip providers whose client
is not configured (missing API key); otherwise run the retry loop (the first
`max_retries` attempts of that provider) and return its result if non-`none`;
exceptions escaping a provider are caught and treated like a `none` result. -/
def generate_content_go (configured : Provider → Bool)
    (attempts : Provider → List (Option Str)) (maxRetries : Nat) :
    List Provider → Option Str
  | [] => none
  | p :: rest =>
    if configured p then
      match generate_with_retries ((attempts p).take maxRetries) with
      | some c => some c
      | none => generate_content_go configured attempts maxRetries rest
    else generate_content_go configured attempts maxRetries rest

/-- `APIClient.generate_content` (prompt-building and logging omitted: they do
not affect which provider result is returned): try the providers in the
configured preference order, return the first non-empty generated content,
or `None` when every provider is skipped or exhausted. -/
def generate_content (preferred : Provider) (configured : Provider → Bool)
    (attempts : Provider → List (Option Str)) (maxRetries : Nat) : Option Str :=
  generate_content_go configured attempts maxRetries (get_provider_order preferred)

-- ## PersonalizationManager RSS cache (src/utils/personalization.py)

/-- `PersonalizationManager.cache_duration = timedelta(hours=8)`, in seconds. -/
def cacheDurationSeconds : ℚ := 8 * 3600

/-- `PersonalizationManager._is_cache_valid`: the cache file exists and its
modification-time age is strictly below the cache duration.  Timestamps are
modelled as rational seconds; `none` models a missing cache file. -/
def is_cache_valid (mtime : Option ℚ) (now : ℚ) : Bool :=
  match mtime with
  | none => false
  | some t => decide (now - t < cacheDurationSeconds)

/-- `PersonalizationManager._load_cached_rss`: return the pickled cache data
verbatim when the cache file is valid, else `None`.  The cache file is
modelled as its modification time together with its stored data; unpickling
is modelled as succeeding. -/
def load_cached_rss {α : Type} (cacheFile : Option (ℚ × α)) (now : ℚ) : Option α :=
  match cacheFile with
  | none => none
  | some (t, d) => if is_cache_valid (some t) now then some d else none

-- ## BaseGenerator normalizer (src/generators/base_generator.py)

/-- Block markers of the conversation markup. -/
def exampleMark : Str := "[example]".toList

/-- End marker of a conversation block. -/
def endExampleMark : Str := "[/example]".toList

/-- Match of the regex `\[<[^>]+>\]` at the start of a string: `[<`, a
non-empty run of characters other than `>`, then `>]`.  Returns the matched
speaker tag and the remainder of the string (used for
`re.match(r'^(\[<[^>]+>\])\s*', line)` and `re.match(r'^\[<[^>]+>\].*', line)`,
whose success is equivalent since `\s*` and `.*` always match). -/
def matchSpeakerTag (s : Str) : Option (Str × Str) :=
  match s with
  | '[' :: '<' :: rest =>
    match rest.takeWhile (fun c => c ≠ '>'), rest.dropWhile (fun c => c ≠ '>') with
    | [], _ => none
    | inner, '>' :: ']' :: rest2 => some ('[' :: '<' :: (inner ++ ['>', ']']), rest2)
    | _, _ => none
  | _ => none

/-- Match of the regex `\s*\([^)]+\)\s*` at the start of a string, returning
the remainder after the match.  `\s*` is greedy but a whitespace character is
never `(`, so the match succeeds exactly when the leading whitespace run is
followed by `(`, a non-empty run of non-`)` characters, and `)`; trailing
whitespace is consumed greedily. -/
def matchParenTag (s : Str) : Option Str :=
  match s.dropWhile pyIsSpace with
  | '(' :: rest =>
    match rest.takeWhile (fun c => c ≠ ')'), rest.dropWhile (fun c => c ≠ ')') with
    | [], _ => none
    | _, ')' :: rest2 => some (rest2.dropWhile pyIsSpace)
    | _, _ => none
  | _ => none

theorem matchParenTag_length {s rest : Str} (h : matchParenTag s = some rest) :
    rest.length < s.length := by
  unfold matchParenTag at h
  split at h
  case _ r heq1 =>
    split at h
    case _ => exact absurd h (by simp)
    case _ inner rest2 hne heq2 =>
      have hrest : rest = rest2.dropWhile pyIsSpace := by
        injection h with h'
        exact h'.symm
      have l1 : rest.length ≤ rest2.length := by
        rw [hrest]
        exact (List.dropWhile_sublist (p := pyIsSpace) (l := rest2)).length_le
      have l2 : rest2.length + 1 ≤ r.length := by
        have := (List.dropWhile_sublist (p := fun c => c ≠ ')') (l := r)).length_le
        rw [hne] at this
        simpa using this
      have l3 : r.length + 1 ≤ s.length := by
        have := (List.dropWhile_sublist (p := pyIsSpace) (l := s)).length_le
        rw [heq1] at this
        simpa using this
      omega
    case _ => exact absurd h (by simp)
  case _ => exact absurd h (by simp)

/-- Scan step of `re.sub(r'\s*\([^)]+\)\s*', ' ', s)`: replace every
(non-overlapping, leftmost) match of the parenthesised-tag pattern by a single
space.  The recursion consumes at least one character per step, so it is
driven by a fuel argument bounded by the string length (keeping the
definition computable by the kernel); the fuel-0 case is unreachable when
the fuel is at least the string length. -/
def subParenTagsF : Nat → Str → Str
  | _, [] => []
  | 0, s => s
  | fuel + 1, c :: cs =>
    match matchParenTag (c :: cs) with
    | some rest => ' ' :: subParenTagsF fuel rest
    | none => c :: subParenTagsF fuel cs

/-- `re.sub(r'\s*\([^)]+\)\s*', ' ', s)`. -/
def subParenTags (s : Str) : Str := subParenTagsF s.length s

theorem subParenTagsF_congr : ∀ (n m : Nat) (s : Str),
    s.length ≤ n → s.length ≤ m → subParenTagsF n s = subParenTagsF m s := by
  intro n
  induction n with
  | zero =>
    intro m s hn _
    have hs : s = [] := List.length_eq_zero.mp (Nat.le_zero.mp hn)
    subst hs
    cases m <;> rfl
  | succ n ih =>
    intro m s hn hm
    cases s with
    | nil => cases m <;> rfl
    | cons c cs =>
      cases m with
      | zero => simp at hm
      | succ m =>
        simp only [subParenTagsF]
        cases hmt : matchParenTag (c :: cs) with
        | some rest =>
          have hr := matchParenTag_length hmt
          simp only [List.length_cons] at hn hm hr
          show ' ' :: subParenTagsF n rest = ' ' :: subParenTagsF m rest
          rw [ih m rest (by omega) (by omega)]
        | none =>
          simp only [List.length_cons] at hn hm
          show c :: subParenTagsF n cs = c :: subParenTagsF m cs
          rw [ih m cs (by omega) (by omega)]

/-- Scan step of `re.findall(r'\([^)]+\)', s)`: all non-overlapping leftmost
matches.  At a `(`, the inner part is the run of non-`)` characters after it
(`cs.takeWhile`); the match succeeds when that run is non-empty and a `)`
follows it (`cs.dropWhile` non-empty — its head is necessarily `)`), and the
scan resumes after the `)`.  Otherwise there is no match at this position and
the scan advances one character.  Fuel-driven for the same reason as
`subParenTagsF`. -/
def findParenTagsF : Nat → Str → List Str
  | _, [] => []
  | 0, _ => []
  | fuel + 1, c :: cs =>
    if c = '(' then
      if cs.takeWhile (fun x => x ≠ ')') ≠ [] ∧
          cs.dropWhile (fun x => x ≠ ')') ≠ [] then
        ('(' :: (cs.takeWhile (fun x => x ≠ ')') ++ [')'])) ::
          findParenTagsF fuel (cs.dropWhile (fun x => x ≠ ')')).tail
      else findParenTagsF fuel cs
    else findParenTagsF fuel cs

/-- `re.findall(r'\([^)]+\)', s)`. -/
def findParenTags (s : Str) : List Str := findParenTagsF s.length s

theorem dropWhile_tail_length_le (p : Char → Bool) (cs : Str) :
    ((cs.dropWhile p).tail).length ≤ cs.length := by
  have h1 := (List.dropWhile_sublist (p := p) (l := cs)).length_le
  rw [List.length_tail]
  omega

theorem findParenTagsF_congr : ∀ (n m : Nat) (s : Str),
    s.length ≤ n → s.length ≤ m → findParenTagsF n s = findParenTagsF m s := by
  intro n
  induction n with
  | zero =>
    intro m s hn _
    have hs : s = [] := List.length_eq_zero.mp (Nat.le_zero.mp hn)
    subst hs
    cases m <;> rfl
  | succ n ih =>
    intro m s hn hm
    cases s with
    | nil => cases m <;> rfl
    | cons c cs =>
      cases m with
      | zero => simp at hm
      | succ m =>
        simp only [findParenTagsF]
        simp only [List.length_cons] at hn hm
        have htail := dropWhile_tail_length_le (fun x => x ≠ ')') cs
        by_cases hc : c = '('
        · rw [if_pos hc, if_pos hc]
          by_cases hcond : cs.takeWhile (fun x => x ≠ ')') ≠ [] ∧
              cs.dropWhile (fun x => x ≠ ')') ≠ []
          · rw [if_pos hcond, if_pos hcond,
              ih m ((cs.dropWhile (fun x => x ≠ ')')).tail) (by omega) (by omega)]
          · rw [if_neg hcond, if_neg hcond, ih m cs (by omega) (by omega)]
        · rw [if_neg hc, if_neg hc, ih m cs (by omega) (by omega)]

/-- Scan step of `re.sub(pat, rep, s, flags=re.IGNORECASE)` for a regex `pat`
that is an escaped string literal: replace each leftmost, non-overlapping,
case-insensitive occurrence of the literal.  (All patterns used by the
program are non-empty; the `pat ≠ []` guard and the length-bounded fuel make
the recursion total and kernel-computable.) -/
def replaceCIF (pat rep : Str) : Nat → Str → Str
  | _, [] => []
  | 0, s => s
  | fuel + 1, c :: cs =>
    if pat ≠ [] ∧ lowerStr pat <+: lowerStr (c :: cs) then
      rep ++ replaceCIF pat rep fuel ((c :: cs).drop pat.length)
    else c :: replaceCIF pat rep fuel cs

/-- `re.sub(pat, rep, s, flags=re.IGNORECASE)` for a literal pattern. -/
def replaceCI (pat rep s : Str) : Str := replaceCIF pat rep s.length s

/-- The official EDCopilot context tags (value of the `valid_tags` table for
the three conversation-bearing categories in `_fix_context_tags`). -/
def officialContextTags : List Str :=
  ["(not-station)".toList, "(not-planet)".toList, "(not-deep-space)".toList]

/-- `valid_tags.get(chatter_type, [])` of `_fix_context_tags`:
`chit_chat` has no context tags; the three conversation categories share the
official tags; unknown categories default to `[]`. -/
def validContextTagsFor (chatterType : Str) : List Str :=
  if chatterType = "chit_chat".toList then []
  else if chatterType = "crew_chatter".toList
      || chatterType = "space_chatter".toList
      || chatterType = "deep_space_chatter".toList then officialContextTags
  else []

/-- The `tag_fixes` dictionary of `_fix_context_tags`, in insertion order
(each regex pattern is an escaped literal, applied case-insensitively). -/
def contextTagFixes : List (Str × Str) :=
  [ ("(not-in-station)".toList, "(not-station)".toList)
  , ("(not-on-planet)".toList, "(not-planet)".toList)
  , ("(not-in-deep-space)".toList, "(not-deep-space)".toList)
  , ("(deep-space)".toList, "(not-deep-space)".toList)
  , ("(exploring)".toList, "(not-station)".toList)
  , ("(in-combat)".toList, "(not-station)".toList)
  , ("(trading)".toList, "(not-station)".toList)
  , ("(mining)".toList, "(not-station)".toList)
  , ("(fuel-low)".toList, "(not-station)".toList)
  , ("(damage)".toList, "(not-station)".toList)
  , ("(near-nebula)".toList, "(not-station)".toList)
  , ("(near-black-hole)".toList, "(not-station)".toList)
  , ("(near-neutron-star)".toList, "(not-station)".toList)
  , ("(asteroid-field)".toList, "(not-station)".toList)
  , ("(unknown-region)".toList, "(not-station)".toList)
  , ("(distant-system)".toList, "(not-station)".toList)
  , ("(void)".toList, "(not-station)".toList)
  , ("(anomaly)".toList, "(not-station)".toList) ]

/-- The `for wrong_tag, correct_tag in tag_fixes.items()` loop of
`_fix_context_tags`. -/
def applyContextTagFixes (s : Str) : Str :=
  contextTagFixes.foldl (fun acc pr => replaceCI pr.1 pr.2 acc) s

/-- The speaker-line test `line.strip().startswith('[<') and ']' in line`
shared by `_fix_context_tags` and `_fix_speaker_tags`. -/
def isSpeakerLineCond (l : Str) : Bool :=
  "[<".toList.isPrefixOf (pyStrip l) && l.contains ']'

/-- First-line branch of the `_fix_context_tags` line loop: collect the
parenthesised tags, keep the valid ones, strip all tags, and when at least one
valid tag remains re-insert the valid tags right after the speaker tag
(`line_without_tags.find(']') + 1`; Python `find` yields `-1` when absent, so
the split point is 0 in that case). -/
def processFirstSpeakerLine (validTagsForType : List Str) (line : Str) : Str :=
  let contextTags := findParenTags line
  let validFound := contextTags.filter (fun t => validTagsForType.contains t)
  if validFound ≠ [] then
    let lineWithoutTags := subParenTags line
    let speakerEnd := match lineWithoutTags.findIdx? (fun c => c = ']') with
      | some i => i + 1
      | none => 0
    let beforeSpeaker := lineWithoutTags.take speakerEnd
    let afterSpeaker := pyStrip (lineWithoutTags.drop speakerEnd)
    beforeSpeaker ++ ' ' :: (pyJoinSep ' ' validFound ++ ' ' :: afterSpeaker)
  else line

/-- The line loop of `_fix_context_tags` (state: `in_example`,
`first_line_in_example`), emitting `cleaned_lines`. -/
def fixContextTagsLoop (validTagsForType : List Str) :
    List Str → Bool → Bool → List Str
  | [], _, _ => []
  | line :: rest, inExample, firstLine =>
    if pyStrip line = exampleMark then
      line :: fixContextTagsLoop validTagsForType rest true true
    else if pyStrip line = endExampleMark then
      line :: fixContextTagsLoop validTagsForType rest false false
    else if inExample && isSpeakerLineCond line then
      if firstLine then
        processFirstSpeakerLine validTagsForType line ::
          fixContextTagsLoop validTagsForType rest true false
      else
        subParenTags line :: fixContextTagsLoop validTagsForType rest inExample firstLine
    else line :: fixContextTagsLoop validTagsForType rest inExample firstLine

/-- `BaseGenerator._fix_context_tags`: `chit_chat` strips every parenthesised
tag from the whole content; the other categories first canonicalize known
non-standard tags (case-insensitively) and then run the per-line loop. -/
def fix_context_tags (chatterType : Str) (content : Str) : Str :=
  if chatterType = "chit_chat".toList then subParenTags content
  else
    pyJoin (fixContextTagsLoop (validContextTagsFor chatterType)
      (splitChar '\n' (applyContextTagFixes content)) false true)

/-- The `valid_speakers` table of `_fix_speaker_tags`. -/
def crewSpeakers : List Str :=
  [ "[<Number1>]".toList, "[<Science>]".toList, "[<Helm>]".toList
  , "[<Operations>]".toList, "[<Engineering>]".toList, "[<Comms>]".toList
  , "[<EDCoPilot>]".toList, "[<Crew:Medical>]".toList, "[<Crew:Tactical>]".toList
  , "[<Crew:Maintenance>]".toList, "[<Crew:Security>]".toList ]

/-- Allowed speakers for `space_chatter`. -/
def spaceSpeakers : List Str :=
  [ "[<Helm>]".toList, "[<EDCoPilot>]".toList, "[<Science>]".toList
  , "[<Operations>]".toList, "[<Tactical>]".toList, "[<Communications>]".toList ]

/-- Allowed speakers for `deep_space_chatter`. -/
def deepSpaceSpeakers : List Str :=
  crewSpeakers ++ [ "[<Ship1>]".toList, "[<Ship2>]".toList
  , "[<Ship3>]".toList, "[<Ship4>]".toList ]

/-- `valid_speakers.get(chatter_type, [])` of `_fix_speaker_tags`. -/
def validSpeakersFor (chatterType : Str) : List Str :=
  if chatterType = "chit_chat".toList then []
  else if chatterType = "crew_chatter".toList then crewSpeakers
  else if chatterType = "space_chatter".toList then spaceSpeakers
  else if chatterType = "deep_space_chatter".toList then deepSpaceSpeakers
  else []

/-- The `speaker_fixes` dictionary of `_fix_speaker_tags` (crew and deep-space
categories only), in insertion order, applied case-insensitively. -/
def speakerFixes : List (Str × Str) :=
  [ ("[<Medical>]".toList, "[<Crew:Medical>]".toList)
  , ("[<Tactical>]".toList, "[<Crew:Tactical>]".toList)
  , ("[<Communications>]".toList, "[<Comms>]".toList)
  , ("[<Comm>]".toList, "[<Comms>]".toList)
  , ("[<Commander>]".toList, "[<Number1>]".toList)
  , ("[<Captain>]".toList, "[<Number1>]".toList)
  , ("[<Crew>]".toList, "[<Number1>]".toList) ]

/-- The `for wrong_speaker, correct_speaker in speaker_fixes.items()` loop. -/
def applySpeakerFixes (s : Str) : Str :=
  speakerFixes.foldl (fun acc pr => replaceCI pr.1 pr.2 acc) s

/-- The default replacement speaker of `_fix_speaker_tags`: `[<Number1>]` for
`crew_chatter`, otherwise the first allowed speaker (or `[<EDCoPilot>]` when
the category has none). -/
def defaultSpeaker (chatterType : Str) : Str :=
  if chatterType = "crew_chatter".toList then "[<Number1>]".toList
  else match validSpeakersFor chatterType with
    | s :: _ => s
    | [] => "[<EDCoPilot>]".toList

/-- Per-line body of the `_fix_speaker_tags` loop: on a speaker line whose
leading tag (matched by `^(\[<[^>]+>\])\s*` on the raw line) is outside the
category's allowed set, `re.sub(r'^\[<[^>]+>\]', default, line)` replaces just
the tag, keeping the remainder of the line. -/
def fixSpeakerLine (chatterType : Str) (line : Str) : Str :=
  if isSpeakerLineCond line then
    match matchSpeakerTag line with
    | some (speakerTag, rest) =>
      if ¬ (validSpeakersFor chatterType).contains speakerTag then
        defaultSpeaker chatterType ++ rest
      else line
    | none => line
  else line

/-- `BaseGenerator._fix_speaker_tags`: `chit_chat` is returned unchanged; crew
and deep-space categories first canonicalize known non-standard speakers
(case-insensitively, anywhere in the content); then every line is passed
through the invalid-speaker replacement. -/
def fix_speaker_tags (chatterType : Str) (content : Str) : Str :=
  if chatterType = "chit_chat".toList then content
  else
    pyJoin ((splitChar '\n'
      (if chatterType = "crew_chatter".toList
          || chatterType = "deep_space_chatter".toList
        then applySpeakerFixes content else content)).map
      (fixSpeakerLine chatterType))

/-- A content-bearing line of `_is_valid_example`:
`re.match(r'^\[<[^>]+>\].*', line) and len(line) > 10` — a speaker tag at the
start and a total line length (speaker tag included) above 10. -/
def isContentLine (l : Str) : Bool :=
  (matchSpeakerTag l).isSome && decide (l.length > 10)

/-- An incomplete speaker line of `_is_valid_example`:
`re.match(r'^\[<[^>]+>\]\s*$', line)` — a speaker tag followed only by
whitespace. -/
def isBareSpeakerLine (l : Str) : Bool :=
  match matchSpeakerTag l with
  | some (_, rest) => rest.all pyIsSpace
  | none => false

/-- `BaseGenerator._is_valid_example`. -/
def is_valid_example (exampleLines : List Str) : Bool :=
  if exampleLines.length < 3 then false
  else if ¬ (exampleLines.head? = some exampleMark) ∨
      ¬ (exampleLines.getLast? = some endExampleMark) then false
  else
    if ¬ ((exampleLines.drop 1).dropLast.any (fun l => isContentLine (pyStrip l))) then
      false
    else ! ((exampleLines.drop 1).dropLast.any (fun l => isBareSpeakerLine (pyStrip l)))

/-- The line loop of `_sanity_check_conversations` (state: `in_example`,
`example_lines`), emitting `cleaned_lines`; every line is stripped on entry,
a `[example]` line (re)starts a block, and an unterminated block at the end
of the input is dropped. -/
def sanityLoop : List Str → Bool → List Str → List Str
  | [], _, _ => []
  | l :: rest, inExample, exampleLines =>
    if pyStrip l = exampleMark then sanityLoop rest true [pyStrip l]
    else if inExample then
      if pyStrip l = endExampleMark then
        (if is_valid_example (exampleLines ++ [pyStrip l]) then
          (exampleLines ++ [pyStrip l]) ++ sanityLoop rest false []
        else sanityLoop rest false [])
      else sanityLoop rest true (exampleLines ++ [pyStrip l])
    else pyStrip l :: sanityLoop rest false exampleLines

/-- `BaseGenerator._sanity_check_conversations`. -/
def sanity_check_conversations (content : Str) : Str :=
  pyJoin (sanityLoop (splitChar '\n' content) false [])

-- ## Supporting lemmas for the merge theorems

theorem contains_iff_mem (ls : List Str) (x : Str) :
    ls.contains x = true ↔ x ∈ ls := by
  simp [List.contains]

theorem uniqueNewLines_subset {el nl : List Str} {l : Str}
    (h : l ∈ uniqueNewLines el nl) : l ∈ nl :=
  List.mem_of_mem_filter h

theorem uniqueNewLines_nil_of_covered (el nl : List Str)
    (h : ∀ x ∈ nl, (el.map lowerStr).contains (lowerStr x) = true) :
    uniqueNewLines el nl = [] := by
  unfold uniqueNewLines
  rw [List.filter_eq_nil_iff]
  intro a ha
  simp only [decide_not, Bool.not_eq_true', decide_eq_false_iff_not, not_not]
  exact h a ha

-- ## Claim theorems: merge mode (C4, C8, C9, C10)

/-- C8: merging existing content `"Line A\nLine B"` with new content
`"line a\nLine C"` yields exactly `"Line A\nLine B\nLine C"`: the new line
that case-insensitively duplicates an existing line is dropped, existing
lines keep their casing and order, and the remaining new lines are appended. -/
theorem merge_scenario_line_a :
    merge_content_strings "Line A\nLine B".toList "line a\nLine C".toList 100 =
      "Line A\nLine B\nLine C".toList := by decide

/-- C9 counterexample to the claim as stated: with `max_lines = 0` the
Python slice `combined_lines[-max_lines:]` is `combined_lines[-0:]`, i.e. the
whole list, so the merge keeps two lines although the configured maximum is
zero. -/
theorem merge_max_zero_counterexample :
    merge_content_strings "a".toList "b".toList 0 = "a\nb".toList ∧
    (contentLines (merge_content_strings "a".toList "b".toList 0)).length = 2 := by
  decide

/-- C9 (amended): for every positive configured maximum, a merge never
produces more than `maxLines` non-blank lines, and when the combined
deduplicated line list exceeds the maximum, lines are dropped from the front
so that exactly the most recent `maxLines` lines remain.  (For
`max_lines = 0` the Python negative slice `[-0:]` keeps every line.) -/
theorem merge_respects_max_lines (E N : Str) (maxLines : Nat)
    (hpos : 0 < maxLines) :
    (contentLines (merge_content_strings E N maxLines)).length ≤ maxLines ∧
    ((contentLines E ++ uniqueNewLines (contentLines E) (contentLines N)).length
        > maxLines →
      contentLines (merge_content_strings E N maxLines) =
        (contentLines E ++ uniqueNewLines (contentLines E) (contentLines N)).drop
          ((contentLines E ++
            uniqueNewLines (contentLines E) (contentLines N)).length - maxLines)) := by
  have hz : ¬ maxLines = 0 := by omega
  rw [contentLines_merge_content_strings]
  unfold mergeLines
  constructor
  · split
    all_goals try rw [List.length_drop]
    all_goals omega
  · intro hgt
    rw [if_pos hgt, if_neg hz]

/-- C9 witness: with `max_lines = 2`, existing `"a\nb"` and new `"c"`, the
combined three deduplicated lines are capped to the two most recent. -/
theorem merge_respects_max_lines_witness :
    (contentLines (merge_content_strings "a\nb".toList "c".toList 2)).length ≤ 2 ∧
    contentLines (merge_content_strings "a\nb".toList "c".toList 2) =
      (contentLines "a\nb".toList ++
        uniqueNewLines (contentLines "a\nb".toList) (contentLines "c".toList)).drop
        ((contentLines "a\nb".toList ++
          uniqueNewLines (contentLines "a\nb".toList)
            (contentLines "c".toList)).length - 2) :=
  ⟨(merge_respects_max_lines "a\nb".toList "c".toList 2 (by decide)).1,
   (merge_respects_max_lines "a\nb".toList "c".toList 2 (by decide)).2 (by decide)⟩

/-- C10: duplicate removal compares new lines only against the pre-existing
lines: every new line whose lowercase form does not occur among the existing
lines is kept, including case-insensitive duplicates within the new content
(counted here via `countP`; the no-truncation hypothesis keeps the cap from
evicting lines afterwards). -/
theorem merge_no_dedupe_within_new (E N x : Str) (maxLines : Nat)
    (hx : ((contentLines E).map lowerStr).contains (lowerStr x) = false)
    (hcap : (contentLines E ++
      uniqueNewLines (contentLines E) (contentLines N)).length ≤ maxLines) :
    (contentLines (merge_content_strings E N maxLines)).countP
        (fun l => lowerStr l == lowerStr x) =
      (contentLines N).countP (fun l => lowerStr l == lowerStr x) := by
  rw [contentLines_merge_content_strings, mergeLines_length_le _ _ _ hcap,
    List.countP_append]
  have h1 : (contentLines E).countP (fun l => lowerStr l == lowerStr x) = 0 := by
    rw [List.countP_eq_zero]
    intro a ha hax
    have hal : lowerStr a = lowerStr x := by simpa using hax
    have hmem : lowerStr x ∈ (contentLines E).map lowerStr :=
      hal ▸ List.mem_map_of_mem lowerStr ha
    rw [← contains_iff_mem] at hmem
    rw [hx] at hmem
    exact absurd hmem (by simp)
  have h2 : (uniqueNewLines (contentLines E) (contentLines N)).countP
      (fun l => lowerStr l == lowerStr x) =
      (contentLines N).countP (fun l => lowerStr l == lowerStr x) := by
    unfold uniqueNewLines
    rw [List.countP_filter]
    apply List.countP_congr
    intro a _
    constructor
    · intro hand
      exact (Bool.and_elim_left hand)
    · intro heq
      have hal : lowerStr a = lowerStr x := by simpa using heq
      refine Bool.and_intro heq ?_
      simp only [decide_not, Bool.not_eq_true', decide_eq_false_iff_not]
      rw [hal]
      intro hcon
      rw [hcon] at hx
      exact absurd hx (by simp)
  omega

/-- C10 witness: existing `"A"`, new `"b\nB"`: the two case-insensitively
equal new lines are both kept. -/
theorem merge_no_dedupe_within_new_witness :
    (contentLines (merge_content_strings "A".toList "b\nB".toList 100)).countP
        (fun l => lowerStr l == lowerStr "b".toList) =
      (contentLines "b\nB".toList).countP
        (fun l => lowerStr l == lowerStr "b".toList) :=
  merge_no_dedupe_within_new "A".toList "b\nB".toList "b".toList 100
    (by decide) (by decide)

/-- Existing content used in the merge-idempotence counterexample: line `"x"`
followed by 99 lines `"b"` (exactly the default `max_lines = 100` lines). -/
def idemE : Str := pyJoin ("x".toList :: List.replicate 99 "b".toList)

/-- New content used in the merge-idempotence counterexample. -/
def idemN : Str := "x\nc".toList

set_option maxRecDepth 100000 in
/-- C4 counterexample: with merge mode's `max_lines = 100`, merging
`idemN = "x\nc"` into `idemE` (100 lines: `"x"` then 99 × `"b"`) drops the
duplicate `"x"` and evicts the original `"x"` by truncation; re-merging the
same new content then re-appends `"x"` (it no longer case-insensitively
matches any line of the file) and evicts a further line — so the second merge
changes the file and merge mode is not idempotent. -/
theorem merge_not_idempotent_counterexample :
    merge_content_strings (merge_content_strings idemE idemN 100) idemN 100 ≠
      merge_content_strings idemE idemN 100 := by decide

/-- C4 (amended): merge mode is idempotent under identical re-application
whenever the combined deduplicated line list fits within the configured
maximum, so that no truncation occurs (with line-level case-insensitive
deduplication). -/
theorem merge_idempotent_without_truncation (E N : Str) (maxLines : Nat)
    (hcap : (contentLines E ++
      uniqueNewLines (contentLines E) (contentLines N)).length ≤ maxLines) :
    merge_content_strings (merge_content_strings E N maxLines) N maxLines =
      merge_content_strings E N maxLines := by
  have hfirst : merge_content_strings E N maxLines =
      pyJoin (contentLines E ++ uniqueNewLines (contentLines E) (contentLines N)) := by
    unfold merge_content_strings
    rw [mergeLines_length_le _ _ _ hcap]
  have hwf : ∀ l ∈ contentLines E ++ uniqueNewLines (contentLines E) (contentLines N),
      pyStrip l = l ∧ l ≠ [] ∧ ('\n' : Char) ∉ l := by
    intro l hl
    rcases List.mem_append.mp hl with h | h
    · exact ⟨contentLines_strip_fixed h, contentLines_ne_nil h,
        contentLines_no_newline h⟩
    · have h' := uniqueNewLines_subset h
      exact ⟨contentLines_strip_fixed h', contentLines_ne_nil h',
        contentLines_no_newline h'⟩
  have hsplit : contentLines (merge_content_strings E N maxLines) =
      contentLines E ++ uniqueNewLines (contentLines E) (contentLines N) := by
    rw [hfirst]
    exact contentLines_pyJoin _ hwf
  have hcovered : uniqueNewLines
      (contentLines E ++ uniqueNewLines (contentLines E) (contentLines N))
      (contentLines N) = [] := by
    apply uniqueNewLines_nil_of_covered
    intro x hx
    rw [contains_iff_mem, List.map_append, List.mem_append]
    by_cases hmem : (((contentLines E).map lowerStr).contains (lowerStr x)) = true
    · rw [contains_iff_mem] at hmem
      exact Or.inl hmem
    · right
      apply List.mem_map_of_mem lowerStr
      unfold uniqueNewLines
      rw [List.mem_filter]
      refine ⟨hx, ?_⟩
      simp only [decide_not, Bool.not_eq_true', decide_eq_false_iff_not]
      intro hcon
      exact hmem hcon
  have houter : merge_content_strings (merge_content_strings E N maxLines) N maxLines =
      pyJoin (mergeLines (contentLines (merge_content_strings E N maxLines))
        (contentLines N) maxLines) := rfl
  rw [houter, hsplit, mergeLines_length_le]
  · rw [hcovered, List.append_nil, ← hfirst]
  · rw [hcovered, List.append_nil]
    exact hcap

/-- C4 witness: a small merge that fits within the cap is idempotent. -/
theorem merge_idempotent_without_truncation_witness :
    merge_content_strings
        (merge_content_strings "Line A\nLine B".toList "line a\nLine C".toList 100)
        "line a\nLine C".toList 100 =
      merge_content_strings "Line A\nLine B".toList "line a\nLine C".toList 100 :=
  merge_idempotent_without_truncation "Line A\nLine B".toList
    "line a\nLine C".toList 100 (by decide)

-- ## Claim theorems: deployment validation gate (C3)

/-- C3 counterexample: the generator deployment path
(`BaseGenerator._deploy_content`, replace mode via
`FileManager.write_content`) writes content that fails `validate_content`
(here the 2-character content `"hi"`): the destination changes and success is
reported, so the validation gate does not guard every deployment write. -/
theorem deploy_gate_counterexample :
    validate_content "hi".toList = false ∧
    generator_deploy_content none "hi".toList false =
      (true, some "hi".toList) := by decide

/-- C3 (amended): on the `FileManager.deploy_content` path the gate holds —
content failing `validate_content` (empty after trimming, shorter than 50
characters, or containing a denylisted substring) blocks the write, leaves
the destination unmodified and reports failure, while passing content is
written; the generator deployment path (`BaseGenerator._deploy_content` via
`write_content`/`merge_content`) performs no such validation. -/
theorem deploy_content_gate (existing : Option Str) (content : Str) :
    (validate_content content = false →
      deploy_content existing content = (false, existing)) ∧
    (validate_content content = true →
      deploy_content existing content = (true, some content)) := by
  constructor <;> intro h <;> simp [deploy_content, h]

/-- C3 witness: short content is rejected and the existing file survives;
long clean content is written. -/
theorem deploy_content_gate_witness :
    deploy_content (some "old data".toList) "hi".toList =
      (false, some "old data".toList) ∧
    deploy_content (some "old data".toList)
        ("this content is long enough to pass the fifty character minimum".toList) =
      (true, some
        "this content is long enough to pass the fifty character minimum".toList) :=
  ⟨(deploy_content_gate (some "old data".toList) "hi".toList).1 (by decide),
   (deploy_content_gate (some "old data".toList) _).2 (by decide)⟩

-- ## Claim theorems: provider failover (C5)

theorem generate_content_go_none (configured : Provider → Bool)
    (attempts : Provider → List (Option Str)) (maxRetries : Nat)
    (order : List Provider)
    (h : ∀ p ∈ order, configured p = false ∨
      generate_with_retries ((attempts p).take maxRetries) = none) :
    generate_content_go configured attempts maxRetries order = none := by
  induction order with
  | nil => rfl
  | cons p rest ih =>
    unfold generate_content_go
    rcases h p (List.mem_cons_self p rest) with hp | hp
    · rw [hp]
      simp only [Bool.false_eq_true, if_false]
      exact ih (fun q hq => h q (List.mem_cons_of_mem p hq))
    · by_cases hc : configured p
      · rw [if_pos hc, hp]
        exact ih (fun q hq => h q (List.mem_cons_of_mem p hq))
      · rw [if_neg hc]
        exact ih (fun q hq => h q (List.mem_cons_of_mem p hq))

/-- C5: the failover client tries the providers in the configured preference
order and returns the first non-empty generated result (stripped, as the code
returns it); when every provider is skipped (not configured) or exhausts its
`max_retries` attempts without non-empty content, it returns `none` — the
sentinel absence, not an exception (the model is a total function).
Conjuncts: (1) total exhaustion yields `none`; (2) a first provider that is
configured and succeeds supplies the result; (3) if the first provider is
skipped or exhausted, a configured succeeding second provider supplies the
result; (4) within one provider, the retry loop returns the first attempt
whose returned text is non-empty after stripping, skipping raised attempts
(`none`) and empty results. -/
theorem failover_first_success (preferred : Provider)
    (configured : Provider → Bool) (attempts : Provider → List (Option Str))
    (maxRetries : Nat) :
    ((∀ p, configured p = false ∨
        generate_with_retries ((attempts p).take maxRetries) = none) →
      generate_content preferred configured attempts maxRetries = none) ∧
    (∀ p₁ p₂ c, get_provider_order preferred = [p₁, p₂] →
      configured p₁ = true →
      generate_with_retries ((attempts p₁).take maxRetries) = some c →
      generate_content preferred configured attempts maxRetries = some c) ∧
    (∀ p₁ p₂ c, get_provider_order preferred = [p₁, p₂] →
      (configured p₁ = false ∨
        generate_with_retries ((attempts p₁).take maxRetries) = none) →
      configured p₂ = true →
      generate_with_retries ((attempts p₂).take maxRetries) = some c →
      generate_content preferred configured attempts maxRetries = some c) ∧
    (∀ (pre : List (Option Str)) (s : Str) (post : List (Option Str)),
      (∀ a ∈ pre, a = none ∨ ∃ s', a = some s' ∧ pyStrip s' = []) →
      pyStrip s ≠ [] →
      generate_with_retries (pre ++ some s :: post) = some (pyStrip s)) := by
  refine ⟨?_, ?_, ?_, ?_⟩
  · intro h
    exact generate_content_go_none configured attempts maxRetries _ (fun p _ => h p)
  · intro p₁ p₂ c horder hc hs
    unfold generate_content
    rw [horder]
    unfold generate_content_go
    rw [if_pos hc, hs]
  · intro p₁ p₂ c horder hfail hc hs
    unfold generate_content
    rw [horder]
    unfold generate_content_go
    rcases hfail with hf | hf
    · rw [hf]
      simp only [Bool.false_eq_true, if_false]
      unfold generate_content_go
      rw [if_pos hc, hs]
    · by_cases hcfg : configured p₁
      · rw [if_pos hcfg, hf]
        unfold generate_content_go
        rw [if_pos hc, hs]
      · rw [if_neg hcfg]
        unfold generate_content_go
        rw [if_pos hc, hs]
  · intro pre s post hpre hs
    induction pre with
    | nil =>
      simp only [List.nil_append, generate_with_retries]
      rw [if_pos hs]
    | cons a rest ih =>
      rcases hpre a (List.mem_cons_self a rest) with ha | ⟨s', ha, hs'⟩
      · subst ha
        simp only [List.cons_append, generate_with_retries]
        exact ih (fun x hx => hpre x (List.mem_cons_of_mem _ hx))
      · subst ha
        simp only [List.cons_append, generate_with_retries]
        rw [if_neg (by simp [hs'])]
        exact ih (fun x hx => hpre x (List.mem_cons_of_mem _ hx))

/-- C5 witness: with no provider configured the client reports the sentinel
absence; with OpenAI configured and its second attempt returning
`"  hello  "`, the stripped text `"hello"` is returned. -/
theorem failover_first_success_witness :
    generate_content Provider.OPENAI (fun _ => false) (fun _ => []) 3 = none ∧
    generate_content Provider.OPENAI (fun _ => true)
        (fun _ => [none, some "  hello  ".toList]) 3 = some "hello".toList := by
  constructor
  · exact (failover_first_success Provider.OPENAI (fun _ => false)
      (fun _ => []) 3).1 (fun p => Or.inl rfl)
  · refine (failover_first_success Provider.OPENAI (fun _ => true)
      (fun _ => [none, some "  hello  ".toList]) 3).2.1
      Provider.OPENAI Provider.ANTHROPIC "hello".toList (by decide) rfl ?_
    decide

-- ## Claim theorems: cache freshness (C6)

/-- C6: a cache entry written (file modification time) at `T` is loaded and
returned verbatim by any read strictly before `T + 8` hours, and treated as
absent (so a fresh fetch is triggered) by any read at or after `T + 8` hours;
the file modification time is the staleness clock. -/
theorem cache_fresh_within_8h {α : Type} (T : ℚ) (d : α) (now : ℚ) :
    (now < T + cacheDurationSeconds →
      load_cached_rss (some (T, d)) now = some d) ∧
    (T + cacheDurationSeconds ≤ now →
      load_cached_rss (some (T, d)) now = none) := by
  constructor
  · intro h
    have hlt : now - T < cacheDurationSeconds := by linarith
    simp [load_cached_rss, is_cache_valid, hlt]
  · intro h
    have hge : ¬ (now - T < cacheDurationSeconds) := by linarith
    simp [load_cached_rss, is_cache_valid, hge]

/-- C6 witness: data written at time 0 is served one second later and absent
exactly at the 8-hour mark (28800 s). -/
theorem cache_fresh_within_8h_witness :
    load_cached_rss (some ((0 : ℚ), (7 : Nat))) 1 = some 7 ∧
    load_cached_rss (some ((0 : ℚ), (7 : Nat))) 28800 = none :=
  ⟨(cache_fresh_within_8h 0 7 1).1 (by norm_num [cacheDurationSeconds]),
   (cache_fresh_within_8h 0 7 28800).2 (by norm_num [cacheDurationSeconds])⟩

-- ## Block-structure model for the sanity check (C1)

/-- Abstract shape of text fed to `_sanity_check_conversations`: a line
outside any block, or an `[example]`-delimited block given by its body. -/
inductive Seg
  | out : Str → Seg
  | blk : List Str → Seg

/-- Concrete lines of one segment. -/
def renderSeg : Seg → List Str
  | .out l => [l]
  | .blk body => exampleMark :: (body ++ [endExampleMark])

/-- Concrete lines of a segment list followed by an optional unterminated
trailing block (start marker present, end marker missing). -/
def renderSegs (segs : List Seg) (trunc : Option (List Str)) : List Str :=
  (segs.map renderSeg).join ++
    (match trunc with
     | none => []
     | some body => exampleMark :: body)

/-- A line already in the normalized shape the pipeline produces before block
validation: stripped and newline-free. -/
def cleanLine (l : Str) : Bool :=
  (pyStrip l == l) && !(l.contains '\n')

/-- A well-formed block-body line: clean and not a block marker. -/
def bodyLineWF (l : Str) : Bool :=
  cleanLine l && (l != exampleMark) && (l != endExampleMark)

/-- Well-formedness of a segment: outside lines are clean and are not a start
marker (a stray end marker outside a block is ordinary text); block bodies
contain no markers. -/
def segWF : Seg → Bool
  | .out l => cleanLine l && (l != exampleMark)
  | .blk body => body.all bodyLineWF

/-- Well-formedness of the optional trailing unterminated block. -/
def truncWF : Option (List Str) → Bool
  | none => true
  | some body => body.all bodyLineWF

/-- The retention test of block validation, in the claim's terms: the body
has at least one content-bearing line (speaker tag and total line length
above 10) and no bare speaker line. -/
def keepBlock (body : List Str) : Bool :=
  body.any isContentLine && !(body.any isBareSpeakerLine)

/-- Lines contributed by a segment to the validated output: outside lines
pass through, blocks survive exactly when `keepBlock` holds. -/
def keepSeg : Seg → List Str
  | .out l => [l]
  | .blk body => if keepBlock body then renderSeg (.blk body) else []

-- ## Lemmas for the sanity-check theorem

theorem any_pyStrip_congr (f : Str → Bool) (body : List Str)
    (hwf : ∀ l ∈ body, pyStrip l = l) :
    body.any (fun l => f (pyStrip l)) = body.any f := by
  induction body with
  | nil => rfl
  | cons b bs ih =>
    simp only [List.any_cons]
    rw [hwf b (List.mem_cons_self b bs),
      ih (fun l hl => hwf l (List.mem_cons_of_mem b hl))]

theorem is_valid_example_render (body : List Str)
    (hwf : ∀ l ∈ body, pyStrip l = l) :
    is_valid_example (exampleMark :: (body ++ [endExampleMark])) =
      keepBlock body := by
  unfold is_valid_example keepBlock
  cases body with
  | nil => simp
  | cons b bs =>
    have hlen : ¬ ((exampleMark :: ((b :: bs) ++ [endExampleMark])).length < 3) := by
      simp
    rw [if_neg hlen]
    have hhead : (exampleMark :: ((b :: bs) ++ [endExampleMark])).head? =
        some exampleMark := rfl
    have hlast : (exampleMark :: ((b :: bs) ++ [endExampleMark])).getLast? =
        some endExampleMark := by
      have : exampleMark :: ((b :: bs) ++ [endExampleMark]) =
          (exampleMark :: (b :: bs)) ++ [endExampleMark] := by simp
      rw [this, List.getLast?_concat]
    rw [if_neg (by rw [hhead, hlast]; simp)]
    have hdrop : ((exampleMark :: ((b :: bs) ++ [endExampleMark])).drop 1).dropLast
        = b :: bs := by
      simp only [List.drop_succ_cons, List.drop_zero]
      exact List.dropLast_concat ..
    rw [hdrop, any_pyStrip_congr isContentLine _ hwf,
      any_pyStrip_congr isBareSpeakerLine _ hwf]
    by_cases hc : (b :: bs).any isContentLine
    · rw [hc]
      simp
    · simp only [Bool.not_eq_true] at hc
      rw [hc]
      simp

theorem exampleMark_strip : pyStrip exampleMark = exampleMark := by decide

theorem endExampleMark_strip : pyStrip endExampleMark = endExampleMark := by decide

theorem marks_ne : endExampleMark ≠ exampleMark := by decide

theorem sanityLoop_cons_eq (l : Str) (rest : List Str) (inEx : Bool)
    (ex : List Str) :
    sanityLoop (l :: rest) inEx ex =
      if pyStrip l = exampleMark then sanityLoop rest true [pyStrip l]
      else if inEx then
        (if pyStrip l = endExampleMark then
          (if is_valid_example (ex ++ [pyStrip l]) then
            (ex ++ [pyStrip l]) ++ sanityLoop rest false []
          else sanityLoop rest false [])
        else sanityLoop rest true (ex ++ [pyStrip l]))
      else pyStrip l :: sanityLoop rest false ex := rfl

theorem keepSeg_out (l : Str) : keepSeg (Seg.out l) = [l] := rfl

theorem keepSeg_blk (body : List Str) :
    keepSeg (Seg.blk body) =
      if keepBlock body then exampleMark :: (body ++ [endExampleMark]) else [] := rfl

theorem sanityLoop_out (l : Str) (rest : List Str) (ex : List Str)
    (hl : pyStrip l = l) (hne : l ≠ exampleMark) :
    sanityLoop (l :: rest) false ex = l :: sanityLoop rest false ex := by
  rw [sanityLoop_cons_eq, hl, if_neg hne]
  simp only [Bool.false_eq_true, if_false]

theorem sanityLoop_trailing (body : List Str) (ex : List Str)
    (hwf : ∀ l ∈ body, pyStrip l = l ∧ l ≠ exampleMark ∧ l ≠ endExampleMark) :
    sanityLoop body true ex = [] := by
  induction body generalizing ex with
  | nil => rfl
  | cons b bs ih =>
    obtain ⟨hb1, hb2, hb3⟩ := hwf b (List.mem_cons_self b bs)
    rw [sanityLoop_cons_eq, hb1, if_neg hb2, if_pos rfl, if_neg hb3]
    exact ih (ex ++ [b]) (fun l hl => hwf l (List.mem_cons_of_mem b hl))

theorem sanityLoop_block (body : List Str) (rest : List Str) (ex : List Str)
    (hwf : ∀ l ∈ body, pyStrip l = l ∧ l ≠ exampleMark ∧ l ≠ endExampleMark) :
    sanityLoop (body ++ endExampleMark :: rest) true ex =
      (if is_valid_example (ex ++ (body ++ [endExampleMark]))
        then (ex ++ (body ++ [endExampleMark])) ++ sanityLoop rest false []
        else sanityLoop rest false []) := by
  induction body generalizing ex with
  | nil =>
    simp only [List.nil_append]
    rw [sanityLoop_cons_eq, endExampleMark_strip, if_neg marks_ne, if_pos rfl,
      if_pos rfl]
  | cons b bs ih =>
    obtain ⟨hb1, hb2, hb3⟩ := hwf b (List.mem_cons_self b bs)
    have hstep : (b :: bs) ++ endExampleMark :: rest =
        b :: (bs ++ endExampleMark :: rest) := rfl
    rw [hstep, sanityLoop_cons_eq, hb1, if_neg hb2, if_pos rfl, if_neg hb3]
    rw [ih (ex ++ [b]) (fun l hl => hwf l (List.mem_cons_of_mem b hl))]
    have hassoc : (ex ++ [b]) ++ (bs ++ [endExampleMark]) =
        ex ++ ((b :: bs) ++ [endExampleMark]) := by simp
    rw [hassoc]

theorem sanityLoop_segs (segs : List Seg) (trunc : Option (List Str))
    (h1 : segs.all segWF) (h2 : truncWF trunc) :
    sanityLoop (renderSegs segs trunc) false [] = (segs.map keepSeg).join := by
  induction segs with
  | nil =>
    cases trunc with
    | none => rfl
    | some body =>
      have hbody : ∀ l ∈ body, pyStrip l = l ∧ l ≠ exampleMark ∧ l ≠ endExampleMark := by
        intro l hl
        have := List.all_eq_true.mp h2 l hl
        unfold bodyLineWF cleanLine at this
        simp only [Bool.and_eq_true, beq_iff_eq, bne_iff_ne, ne_eq,
          Bool.not_eq_true'] at this
        exact ⟨this.1.1.1, this.1.2, this.2⟩
      show sanityLoop (([] : List (List Char)) ++ exampleMark :: body) false [] = []
      simp only [List.nil_append]
      rw [sanityLoop_cons_eq, if_pos exampleMark_strip, exampleMark_strip]
      exact sanityLoop_trailing body [exampleMark] hbody
  | cons seg segs ih =>
    have hseg : segWF seg := (List.all_eq_true.mp h1 seg (List.mem_cons_self seg segs))
    have hsegs : segs.all segWF := by
      rw [List.all_eq_true]
      intro x hx
      exact List.all_eq_true.mp h1 x (List.mem_cons_of_mem seg hx)
    cases seg with
    | out l =>
      unfold segWF cleanLine at hseg
      simp only [Bool.and_eq_true, beq_iff_eq, bne_iff_ne, ne_eq,
        Bool.not_eq_true'] at hseg
      have hrender : renderSegs (Seg.out l :: segs) trunc =
          l :: renderSegs segs trunc := by
        unfold renderSegs renderSeg
        simp
      rw [hrender, sanityLoop_out l _ [] hseg.1.1 hseg.2, ih hsegs]
      rfl
    | blk body =>
      unfold segWF at hseg
      have hbody : ∀ l ∈ body, pyStrip l = l ∧ l ≠ exampleMark ∧ l ≠ endExampleMark := by
        intro l hl
        have := List.all_eq_true.mp hseg l hl
        unfold bodyLineWF cleanLine at this
        simp only [Bool.and_eq_true, beq_iff_eq, bne_iff_ne, ne_eq,
          Bool.not_eq_true'] at this
        exact ⟨this.1.1.1, this.1.2, this.2⟩
      have hrender : renderSegs (Seg.blk body :: segs) trunc =
          exampleMark :: (body ++ endExampleMark :: renderSegs segs trunc) := by
        unfold renderSegs renderSeg
        simp
      rw [hrender, sanityLoop_cons_eq, if_pos exampleMark_strip, exampleMark_strip]
      rw [sanityLoop_block body _ [exampleMark] hbody]
      have hbridge : is_valid_example ([exampleMark] ++ (body ++ [endExampleMark])) =
          keepBlock body := by
        have hshape : [exampleMark] ++ (body ++ [endExampleMark]) =
            exampleMark :: (body ++ [endExampleMark]) := rfl
        rw [hshape]
        exact is_valid_example_render body (fun l hl => (hbody l hl).1)
      rw [hbridge]
      by_cases hk : keepBlock body
      · rw [if_pos hk, ih hsegs]
        simp only [List.map_cons, List.join_cons, keepSeg_blk, if_pos hk]
        simp
      · rw [if_neg (by simp [hk]), ih hsegs]
        simp only [List.map_cons, List.join_cons, keepSeg_blk,
          if_neg (show ¬ (keepBlock body = true) by simp [hk])]
        simp

theorem cleanLine_parts {l : Str} (h : cleanLine l = true) :
    pyStrip l = l ∧ ('\n' : Char) ∉ l := by
  unfold cleanLine at h
  simp only [Bool.and_eq_true, beq_iff_eq, Bool.not_eq_true'] at h
  refine ⟨h.1, ?_⟩
  intro hmem
  have : l.contains '\n' = true := by
    simp [List.contains, hmem]
  rw [this] at h
  exact absurd h.2 (by simp)

theorem renderSegs_no_newline (segs : List Seg) (trunc : Option (List Str))
    (h1 : segs.all segWF = true) (h2 : truncWF trunc = true) :
    ∀ l ∈ renderSegs segs trunc, ('\n' : Char) ∉ l := by
  intro l hl
  have hmark : ('\n' : Char) ∉ exampleMark := by decide
  have hemark : ('\n' : Char) ∉ endExampleMark := by decide
  unfold renderSegs at hl
  rcases List.mem_append.mp hl with h | h
  · rcases List.mem_join.mp h with ⟨piece, hpiece, hlp⟩
    rcases List.mem_map.mp hpiece with ⟨s, hs, hsp⟩
    have hw := List.all_eq_true.mp h1 s hs
    cases s with
    | out l' =>
      unfold segWF at hw
      simp only [Bool.and_eq_true] at hw
      rw [← hsp] at hlp
      unfold renderSeg at hlp
      simp only [List.mem_singleton] at hlp
      subst hlp
      exact (cleanLine_parts hw.1).2
    | blk body =>
      unfold segWF at hw
      rw [← hsp] at hlp
      unfold renderSeg at hlp
      rcases List.mem_cons.mp hlp with hh | hh
      · subst hh; exact hmark
      · rcases List.mem_append.mp hh with hb | hb
        · have := List.all_eq_true.mp hw l hb
          unfold bodyLineWF at this
          simp only [Bool.and_eq_true] at this
          exact (cleanLine_parts this.1.1).2
        · simp only [List.mem_singleton] at hb
          subst hb; exact hemark
  · cases trunc with
    | none => simp at h
    | some body =>
      unfold truncWF at h2
      rcases List.mem_cons.mp h with hh | hh
      · subst hh; exact hmark
      · have := List.all_eq_true.mp h2 l hh
        unfold bodyLineWF at this
        simp only [Bool.and_eq_true] at this
        exact (cleanLine_parts this.1.1).2

/-- C1: block validation, applied to text whose lines are already trimmed
(the shape the cleanup pass feeds it): every `[example]`-delimited block is
kept exactly when it has an end marker, at least one content-bearing line
(speaker tag at the start and total line length, speaker tag included, above
10 characters) and no line consisting of a speaker tag with no message text;
an unterminated trailing block is dropped entirely, and lines outside blocks
pass through unchanged. -/
theorem sanity_check_drops_invalid_blocks (segs : List Seg)
    (trunc : Option (List Str))
    (h1 : segs.all segWF = true) (h2 : truncWF trunc = true) :
    sanity_check_conversations (pyJoin (renderSegs segs trunc)) =
      pyJoin ((segs.map keepSeg).join) := by
  rcases hcase : renderSegs segs trunc with _ | ⟨a, rest⟩
  · -- the rendered text is empty: no segments and no trailing block
    have hsplit := hcase
    unfold renderSegs at hsplit
    rcases List.append_eq_nil.mp hsplit with ⟨hjoin, htr⟩
    have hsegs : segs = [] := by
      cases segs with
      | nil => rfl
      | cons s ss =>
        exfalso
        simp only [List.map_cons, List.join_cons] at hjoin
        rcases List.append_eq_nil.mp hjoin with ⟨hr, _⟩
        cases s <;> simp [renderSeg] at hr
    subst hsegs
    decide
  · rw [← hcase]
    unfold sanity_check_conversations
    rw [splitChar_pyJoin _ (by rw [hcase]; simp)
      (renderSegs_no_newline segs trunc h1 h2)]
    rw [sanityLoop_segs segs trunc h1 h2]

/-- C1 witness: two valid blocks, a line in between, and an unterminated
block at the end of the text — the output is exactly the two valid blocks
and the outside line. -/
theorem sanity_check_drops_invalid_blocks_witness :
    sanity_check_conversations (pyJoin (renderSegs
        [Seg.blk ["[<Helm>] all systems nominal".toList],
         Seg.out "between the blocks".toList,
         Seg.blk ["[<Science>] readings are strange".toList]]
        (some ["[<Helm>] cut off mid".toList]))) =
      pyJoin (((
        [Seg.blk ["[<Helm>] all systems nominal".toList],
         Seg.out "between the blocks".toList,
         Seg.blk ["[<Science>] readings are strange".toList]] : List Seg).map
        keepSeg).join) :=
  sanity_check_drops_invalid_blocks
    [Seg.blk ["[<Helm>] all systems nominal".toList],
     Seg.out "between the blocks".toList,
     Seg.blk ["[<Science>] readings are strange".toList]]
    (some ["[<Helm>] cut off mid".toList]) (by decide) (by decide)

/-- C1 counterexample to the claim as stated: `[<A>] mmmm` and `[<AB>] mmmm`
carry the same message text `mmmm`, yet the block containing the first is
dropped (line length 10, not above the threshold) while the block containing
the second is kept (line length 11) — the threshold applies to the whole line
including the speaker tag, not to the message text; moreover text outside
blocks does not pass through unaffected: it is whitespace-trimmed. -/
theorem sanity_check_threshold_counterexample :
    sanity_check_conversations "[example]\n[<A>] mmmm\n[/example]".toList = [] ∧
    sanity_check_conversations "[example]\n[<AB>] mmmm\n[/example]".toList =
      "[example]\n[<AB>] mmmm\n[/example]".toList ∧
    sanity_check_conversations " hi ".toList = "hi".toList := by decide

-- ## Lemmas for the context-tag theorem (C7)

theorem findParenTags_cons_ne {c : Char} (h : c ≠ '(') (s : Str) :
    findParenTags (c :: s) = findParenTags s := by
  simp only [findParenTags, List.length_cons, findParenTagsF, if_neg h]

theorem dropWhile_ne_of_mem {a : Char} {l : List Char} (h : a ∈ l) :
    ∃ r, l.dropWhile (fun x => x ≠ a) = a :: r := by
  induction l with
  | nil => simp at h
  | cons b bs ih =>
    by_cases hb : b = a
    · subst hb
      exact ⟨bs, by rw [List.dropWhile_cons_of_neg (by simp)]⟩
    · rcases List.mem_cons.mp h with h1 | h1
      · exact absurd h1.symm hb
      · rcases ih h1 with ⟨r, hr⟩
        exact ⟨r, by rw [List.dropWhile_cons_of_pos (by simp [hb]), hr]⟩

theorem matchParenTag_suffix {s rest : Str} (h : matchParenTag s = some rest) :
    rest <:+ s := by
  unfold matchParenTag at h
  split at h
  case _ r heq1 =>
    split at h
    case _ => exact absurd h (by simp)
    case _ inner rest2 hne heq2 =>
      injection h with h'
      have s1 : ('(' :: r) <:+ s := heq1 ▸ List.dropWhile_suffix pyIsSpace
      have s2 : r <:+ s := (List.suffix_cons '(' r).trans s1
      have s3 : ((')' :: rest2) <:+ r) := hne ▸ List.dropWhile_suffix _
      have s4 : rest2 <:+ r := (List.suffix_cons ')' rest2).trans s3
      have s5 : List.dropWhile pyIsSpace rest2 <:+ rest2 := List.dropWhile_suffix _
      rw [← h']
      exact (s5.trans s4).trans s2
    case _ => exact absurd h (by simp)
  case _ => exact absurd h (by simp)

theorem subParenTags_some {c : Char} {cs rest : Str}
    (h : matchParenTag (c :: cs) = some rest) :
    subParenTags (c :: cs) = ' ' :: subParenTags rest := by
  have hr := matchParenTag_length h
  simp only [List.length_cons] at hr
  simp only [subParenTags, List.length_cons, subParenTagsF, h]
  rw [subParenTagsF_congr cs.length rest.length rest (by omega) le_rfl]

theorem subParenTags_none {c : Char} {cs : Str}
    (h : matchParenTag (c :: cs) = none) :
    subParenTags (c :: cs) = c :: subParenTags cs := by
  simp only [subParenTags, List.length_cons, subParenTagsF, h]

theorem mem_subParenTags (s : Str) : ∀ x ∈ subParenTags s, x = ' ' ∨ x ∈ s := by
  have H : ∀ (n : Nat) (t : Str), t.length ≤ n →
      ∀ x ∈ subParenTags t, x = ' ' ∨ x ∈ t := by
    intro n
    induction n with
    | zero =>
      intro t ht x hx
      have hnil : t = [] := List.length_eq_zero.mp (Nat.le_zero.mp ht)
      subst hnil
      simp [subParenTags, subParenTagsF] at hx
    | succ n ih =>
      intro t ht x hx
      cases t with
      | nil => simp [subParenTags, subParenTagsF] at hx
      | cons c cs =>
        simp only [List.length_cons] at ht
        cases hmt : matchParenTag (c :: cs) with
        | some rest =>
          rw [subParenTags_some hmt] at hx
          have hr := matchParenTag_length hmt
          simp only [List.length_cons] at hr
          rcases List.mem_cons.mp hx with h1 | h1
          · exact Or.inl h1
          · rcases ih rest (by omega) x h1 with h2 | h2
            · exact Or.inl h2
            · exact Or.inr ((matchParenTag_suffix hmt).subset h2)
        | none =>
          rw [subParenTags_none hmt] at hx
          rcases List.mem_cons.mp hx with h1 | h1
          · exact Or.inr (h1 ▸ List.mem_cons_self c cs)
          · rcases ih cs (by omega) x h1 with h2 | h2
            · exact Or.inl h2
            · exact Or.inr (List.mem_cons_of_mem c h2)
  exact H s.length s le_rfl

theorem matchParenTag_close_none (ds : Str) : matchParenTag (')' :: ds) = none := rfl

theorem findParenTags_paren (cs : Str) :
    findParenTags ('(' :: cs) =
      if cs.takeWhile (fun x => x ≠ ')') ≠ [] ∧
          cs.dropWhile (fun x => x ≠ ')') ≠ [] then
        ('(' :: (cs.takeWhile (fun x => x ≠ ')') ++ [')'])) ::
          findParenTags (cs.dropWhile (fun x => x ≠ ')')).tail
      else findParenTags cs := by
  by_cases hcond : cs.takeWhile (fun x => x ≠ ')') ≠ [] ∧
      cs.dropWhile (fun x => x ≠ ')') ≠ []
  · rw [if_pos hcond]
    simp only [findParenTags, List.length_cons, findParenTagsF, if_pos hcond, if_true]
    rw [findParenTagsF_congr cs.length
      ((cs.dropWhile (fun x => x ≠ ')')).tail).length _
      (dropWhile_tail_length_le _ cs) le_rfl]
  · rw [if_neg hcond]
    simp only [findParenTags, List.length_cons, findParenTagsF, if_neg hcond, if_true]

theorem findParenTags_paren_fallback (cs : Str)
    (hfail : cs.takeWhile (fun x => x ≠ ')') = [] ∨
      cs.dropWhile (fun x => x ≠ ')') = []) :
    findParenTags ('(' :: cs) = findParenTags cs := by
  rw [findParenTags_paren, if_neg]
  rcases hfail with h | h
  · exact fun hc => hc.1 h
  · exact fun hc => hc.2 h

theorem matchParenTag_open_some {d : Char} {ds r : Str} (hd : ¬ d = ')')
    (hr : (d :: ds).dropWhile (fun x => x ≠ ')') = ')' :: r) :
    matchParenTag ('(' :: d :: ds) = some (r.dropWhile pyIsSpace) := by
  unfold matchParenTag
  rw [List.dropWhile_cons_of_neg (by decide)]
  show (match List.takeWhile (fun c => c ≠ ')') (d :: ds),
      List.dropWhile (fun c => c ≠ ')') (d :: ds) with
    | [], _ => none
    | _, ')' :: rest2 => some (List.dropWhile pyIsSpace rest2)
    | _, _ => none) = some (List.dropWhile pyIsSpace r)
  rw [List.takeWhile_cons_of_pos (by simp [hd]), hr]
  rfl

theorem findParenTags_subParenTags (s : Str) :
    findParenTags (subParenTags s) = [] := by
  have H : ∀ (n : Nat) (t : Str), t.length ≤ n →
      findParenTags (subParenTags t) = [] := by
    intro n
    induction n with
    | zero =>
      intro t ht
      have hnil : t = [] := List.length_eq_zero.mp (Nat.le_zero.mp ht)
      subst hnil
      rfl
    | succ n ih =>
      intro t ht
      cases t with
      | nil => rfl
      | cons c cs =>
        simp only [List.length_cons] at ht
        cases hmt : matchParenTag (c :: cs) with
        | some rest =>
          have hr := matchParenTag_length hmt
          simp only [List.length_cons] at hr
          rw [subParenTags_some hmt, findParenTags_cons_ne (by decide)]
          exact ih rest (by omega)
        | none =>
          rw [subParenTags_none hmt]
          by_cases hc : c = '('
          · subst hc
            cases cs with
            | nil => decide
            | cons d ds =>
              by_cases hd : d = ')'
              · subst hd
                have hsub : subParenTags (')' :: ds) = ')' :: subParenTags ds :=
                  subParenTags_none (matchParenTag_close_none ds)
                rw [hsub]
                rw [findParenTags_paren_fallback _
                  (Or.inl (List.takeWhile_cons_of_neg (by decide)))]
                rw [findParenTags_cons_ne (by decide)]
                exact ih ds (by simp only [List.length_cons] at ht; omega)
              · have hnomem : (')' : Char) ∉ (d :: ds) := by
                  intro hmem
                  rcases dropWhile_ne_of_mem hmem with ⟨r, hr⟩
                  rw [matchParenTag_open_some hd hr] at hmt
                  exact absurd hmt (by simp)
                have hnomem2 : (')' : Char) ∉ subParenTags (d :: ds) := by
                  intro hmem
                  rcases mem_subParenTags (d :: ds) ')' hmem with h1 | h1
                  · exact absurd h1 (by decide)
                  · exact hnomem h1
                rw [findParenTags_paren_fallback _ (Or.inr
                  (List.dropWhile_eq_nil_iff.mpr
                    (fun x hx => by
                      simp only [decide_eq_true_eq]
                      intro hxe
                      subst hxe
                      exact hnomem2 hx)))]
                exact ih (d :: ds) (by omega)
          · rw [findParenTags_cons_ne hc]
            exact ih cs (by omega)
  exact H s.length s le_rfl

theorem contextLoop_cons_eq (v : List Str) (l : Str) (rest : List Str)
    (inEx firstLine : Bool) :
    fixContextTagsLoop v (l :: rest) inEx firstLine =
      if pyStrip l = exampleMark then l :: fixContextTagsLoop v rest true true
      else if pyStrip l = endExampleMark then
        l :: fixContextTagsLoop v rest false false
      else if inEx && isSpeakerLineCond l then
        (if firstLine then
          processFirstSpeakerLine v l :: fixContextTagsLoop v rest true false
        else subParenTags l :: fixContextTagsLoop v rest inEx firstLine)
      else l :: fixContextTagsLoop v rest inEx firstLine := rfl

theorem contextLoop_pre (v : List Str) (pre rest : List Str)
    (h : ∀ l ∈ pre, pyStrip l ≠ exampleMark ∧ pyStrip l ≠ endExampleMark ∧
      isSpeakerLineCond l = false) :
    fixContextTagsLoop v (pre ++ rest) true true =
      pre ++ fixContextTagsLoop v rest true true := by
  induction pre with
  | nil => rfl
  | cons p ps ih =>
    obtain ⟨h1, h2, h3⟩ := h p (List.mem_cons_self p ps)
    rw [List.cons_append, contextLoop_cons_eq, if_neg h1, if_neg h2]
    simp only [h3, Bool.and_false, Bool.false_eq_true, if_false]
    rw [ih (fun l hl => h l (List.mem_cons_of_mem p hl))]
    rfl

theorem contextLoop_post (v : List Str) (post rest : List Str)
    (h : ∀ l ∈ post, pyStrip l ≠ exampleMark ∧ pyStrip l ≠ endExampleMark) :
    fixContextTagsLoop v (post ++ rest) true false =
      post.map (fun l => if isSpeakerLineCond l then subParenTags l else l) ++
        fixContextTagsLoop v rest true false := by
  induction post with
  | nil => rfl
  | cons p ps ih =>
    obtain ⟨h1, h2⟩ := h p (List.mem_cons_self p ps)
    rw [List.cons_append, contextLoop_cons_eq, if_neg h1, if_neg h2]
    by_cases hs : isSpeakerLineCond p
    · simp only [hs, Bool.and_true, Bool.true_and, Bool.false_eq_true, if_false,
        if_true]
      rw [ih (fun l hl => h l (List.mem_cons_of_mem p hl))]
      simp only [List.map_cons, hs, if_true, List.cons_append]
    · simp only [hs, Bool.and_false, Bool.false_eq_true, if_false]
      rw [ih (fun l hl => h l (List.mem_cons_of_mem p hl))]
      simp only [List.map_cons, hs, Bool.false_eq_true, if_false, List.cons_append]

/-- C7 (amended): inside a conversation block, the parenthesised context tags
of every speaker-tagged line after the block's first speaker-tagged line are
removed in place (the line is rewritten by the tag-removal substitution, and
the rewritten line contains no parenthesised tag at all); lines before the
first speaker-tagged line pass through this pass unchanged (so a tag on a
non-speaker line is not removed), the first speaker-tagged line gets the
first-line repair, and nothing is relocated to any other line. -/
theorem context_tags_removed_on_later_speaker_lines (v : List Str)
    (pre : List Str) (s : Str) (post rest : List Str) (b : Bool)
    (hpre : ∀ l ∈ pre, pyStrip l ≠ exampleMark ∧ pyStrip l ≠ endExampleMark ∧
      isSpeakerLineCond l = false)
    (hs1 : pyStrip s ≠ exampleMark) (hs2 : pyStrip s ≠ endExampleMark)
    (hs3 : isSpeakerLineCond s = true)
    (hpost : ∀ l ∈ post, pyStrip l ≠ exampleMark ∧ pyStrip l ≠ endExampleMark) :
    fixContextTagsLoop v (exampleMark :: (pre ++ s :: (post ++
        endExampleMark :: rest))) false b =
      exampleMark :: (pre ++ processFirstSpeakerLine v s ::
        (post.map (fun l => if isSpeakerLineCond l then subParenTags l else l) ++
          endExampleMark :: fixContextTagsLoop v rest false false)) ∧
    (∀ l : Str, findParenTags (subParenTags l) = []) := by
  constructor
  · rw [contextLoop_cons_eq, if_pos exampleMark_strip]
    rw [contextLoop_pre v pre _ hpre]
    rw [contextLoop_cons_eq, if_neg hs1, if_neg hs2]
    simp only [hs3, Bool.and_true, Bool.true_and, if_true]
    rw [contextLoop_post v post _ hpost]
    rw [contextLoop_cons_eq, if_neg (by rw [endExampleMark_strip]; exact marks_ne),
      if_pos endExampleMark_strip]
  · exact findParenTags_subParenTags

/-- C7 witness: a block whose first line is ordinary text, whose first
speaker line carries a valid tag, and whose second speaker line carries a
valid tag that is removed. -/
theorem context_tags_removed_witness :
    fixContextTagsLoop (validContextTagsFor "space_chatter".toList)
      (exampleMark :: (["ambient hum in the cabin".toList] ++
        "[<Helm>] (not-station) all quiet".toList ::
        (["[<Science>] (not-planet) indeed".toList] ++
          endExampleMark :: []))) false true =
      exampleMark :: (["ambient hum in the cabin".toList] ++
        processFirstSpeakerLine (validContextTagsFor "space_chatter".toList)
          "[<Helm>] (not-station) all quiet".toList ::
        (List.map (fun l => if isSpeakerLineCond l then subParenTags l else l)
          ["[<Science>] (not-planet) indeed".toList] ++
          endExampleMark :: fixContextTagsLoop
            (validContextTagsFor "space_chatter".toList) [] false false)) :=
  (context_tags_removed_on_later_speaker_lines
    (validContextTagsFor "space_chatter".toList)
    ["ambient hum in the cabin".toList]
    "[<Helm>] (not-station) all quiet".toList
    ["[<Science>] (not-planet) indeed".toList] [] true
    (by decide) (by decide) (by decide) (by decide) (by decide)).1

/-- C7 counterexample to the claim as stated: a context tag on a non-speaker
line that is not the block's first line is not removed — `_fix_context_tags`
only rewrites lines that pass the speaker-line test, so the tag
`(not-station)` on the third line survives although it appears on a line
other than the block's first line. -/
theorem context_tag_on_later_line_kept_counterexample :
    fix_context_tags "space_chatter".toList
      ("[example]\n[<Helm>] Hi everyone\nIt is quiet (not-station) out here\n" ++
        "[/example]").toList =
      ("[example]\n[<Helm>] Hi everyone\nIt is quiet (not-station) out here\n" ++
        "[/example]").toList := by decide

-- ## Lemmas for the speaker-tag theorem (C2)

theorem matchSpeakerTag_shape {l tag rest : Str}
    (h : matchSpeakerTag l = some (tag, rest)) :
    l = tag ++ rest ∧ ∃ inner : Str, inner ≠ [] ∧
      tag = '[' :: '<' :: (inner ++ ['>', ']']) := by
  unfold matchSpeakerTag at h
  split at h
  case _ r =>
    split at h
    case _ => exact absurd h (by simp)
    case _ inner rest2 hne heq =>
      injection h with h'
      injection h' with h1 h2
      constructor
      · have hr : r = List.takeWhile (fun c => c ≠ '>') r ++
            List.dropWhile (fun c => c ≠ '>') r :=
          (List.takeWhile_append_dropWhile ..).symm
        rw [← h1, ← h2]
        rw [show ('[' :: '<' :: (List.takeWhile (fun c => c ≠ '>') r ++ ['>', ']']))
            ++ rest2 = '[' :: '<' :: (List.takeWhile (fun c => c ≠ '>') r ++
              ('>' :: ']' :: rest2)) by simp]
        rw [← hne]
        rw [← hr]
      · refine ⟨List.takeWhile (fun c => c ≠ '>') r, ?_, h1.symm⟩
        intro hcon
        exact heq hcon
    case _ => exact absurd h (by simp)
  case _ => exact absurd h (by simp)

theorem isSpeakerLineCond_of_match {l tag rest : Str}
    (hstrip : pyStrip l = l) (h : matchSpeakerTag l = some (tag, rest)) :
    isSpeakerLineCond l = true := by
  obtain ⟨hl, inner, hinner, htag⟩ := matchSpeakerTag_shape h
  unfold isSpeakerLineCond
  rw [hstrip, hl, htag]
  rw [Bool.and_eq_true]
  constructor
  · show List.isPrefixOf ['[', '<'] ('[' :: '<' :: (inner ++ ['>', ']']) ++ rest) = true
    simp [List.isPrefixOf]
  · show List.contains ('[' :: '<' :: (inner ++ ['>', ']']) ++ rest) ']' = true
    simp [List.contains]

/-- C2 (amended): known non-standard speaker spellings are first canonicalized
case-insensitively by the fixes dictionary (for the crew and deep-space
categories); after that pass, every line whose leading speaker tag is outside
the active category's allowed speaker set is rewritten to the category's
defined default speaker — never left unchanged and never dropped — and in
particular the end-to-end Commander scenario holds (Commander canonicalizes
to Number1, which is crew chatter's default). -/
theorem invalid_speaker_rewritten_to_default (chatterType l tag rest : Str)
    (hcat : chatterType = "crew_chatter".toList ∨
      chatterType = "space_chatter".toList ∨
      chatterType = "deep_space_chatter".toList)
    (hnl : ('\n' : Char) ∉ l)
    (hstrip : pyStrip l = l)
    (hfix : applySpeakerFixes l = l)
    (hmatch : matchSpeakerTag l = some (tag, rest))
    (hvalid : tag ∉ validSpeakersFor chatterType) :
    fix_speaker_tags chatterType l = defaultSpeaker chatterType ++ rest ∧
    fix_speaker_tags "crew_chatter".toList
        "[example]\n[<Commander>] Hi\n[/example]".toList =
      "[example]\n[<Number1>] Hi\n[/example]".toList := by
  refine ⟨?_, by decide⟩
  have hne : ¬ chatterType = "chit_chat".toList := by
    rcases hcat with h | h | h <;> subst h <;> decide
  unfold fix_speaker_tags
  rw [if_neg hne]
  have hbase : (if chatterType = "crew_chatter".toList
      || chatterType = "deep_space_chatter".toList
    then applySpeakerFixes l else l) = l := by
    split
    · exact hfix
    · rfl
  rw [hbase, splitChar_no_sep '\n' l hnl]
  simp only [List.map_cons, List.map_nil]
  show fixSpeakerLine chatterType l = defaultSpeaker chatterType ++ rest
  unfold fixSpeakerLine
  rw [isSpeakerLineCond_of_match hstrip hmatch, if_pos rfl, hmatch]
  show (if ¬ (validSpeakersFor chatterType).contains tag = true
      then defaultSpeaker chatterType ++ rest else l) =
    defaultSpeaker chatterType ++ rest
  rw [if_pos]
  intro hcon
  rw [contains_iff_mem] at hcon
  exact hvalid hcon

/-- C2 witness: a line with an unknown speaker tag, untouched by the fixes
dictionary, is rewritten to crew chatter's default `[<Number1>]`. -/
theorem invalid_speaker_rewritten_witness :
    fix_speaker_tags "crew_chatter".toList "[<Bogus>] Hello there".toList =
      defaultSpeaker "crew_chatter".toList ++ " Hello there".toList :=
  (invalid_speaker_rewritten_to_default "crew_chatter".toList
    "[<Bogus>] Hello there".toList "[<Bogus>]".toList " Hello there".toList
    (Or.inl rfl) (by decide) (by decide) (by decide) (by decide) (by decide)).1

/-- C2 counterexample to the claim as stated: `[<Medical>]` is outside crew
chatter's allowed speaker set, but the line is rewritten to
`[<Crew:Medical>]` by the canonicalization dictionary — not to the category
default `[<Number1>]` as the claim requires for every out-of-set tag. -/
theorem dictionary_speaker_not_default_counterexample :
    ("[<Medical>]".toList ∈ validSpeakersFor "crew_chatter".toList) = False ∧
    fix_speaker_tags "crew_chatter".toList
        "[<Medical>] Patching you up now".toList =
      "[<Crew:Medical>] Patching you up now".toList ∧
    ("[<Crew:Medical>]".toList ≠ "[<Number1>]".toList) := by
  refine ⟨by simp; decide, by decide, by decide⟩
